import Mathlib

/-!
Verification of the fyrechat message-decoding pipeline.

A shallow embedding of `src/assets/fyrechat.js` (tag decoding, PRIVMSG
parsing, emote segmentation, badge resolution, and the badge lookup
cache) together with proofs about the embedded definitions.

Strings are modelled as `List Char`: the JS functions operate on
UTF-16 code-unit indices and the algorithms are purely index-based, so
a list of abstract characters is a faithful model.  JS `Map` objects
and tag objects are modelled as association lists where a later `set`
of the same key appends an entry and lookup returns the value of the
last matching entry (last-write-wins, matching JS assignment
semantics).
-/

namespace Fyrechat

/-! ## Generic string / list utilities used by the source -/

/-- Model of JS `String.prototype.split(sep)` for a single-character
separator: `"".split(c)` is `[""]`, and separators at the ends or
adjacent to each other produce empty pieces. -/
def splitOnChar (c : Char) : List Char → List (List Char)
  | [] => [[]]
  | x :: xs =>
      if x = c then [] :: splitOnChar c xs
      else
        match splitOnChar c xs with
        | [] => [[x]]
        | y :: ys => (x :: y) :: ys

/-- Join pieces with a single-character separator (inverse of
`splitOnChar` on separator-free pieces); used only to state round-trip
properties. -/
def joinChar (c : Char) : List (List Char) → List Char
  | [] => []
  | [x] => x
  | x :: xs => x ++ c :: joinChar c xs

/-- Model of JS `String.prototype.indexOf(pat)`: index of the first
occurrence of `pat` in `s`, or `none` where JS returns `-1`. -/
def jsIndexOf (pat : List Char) : List Char → Option Nat
  | [] => if pat = [] then some 0 else none
  | x :: xs =>
      if pat.isPrefixOf (x :: xs) then some 0
      else (jsIndexOf pat xs).map (· + 1)

/-- Model of JS `s.slice(a, b)` for non-negative indices: the
code units from `a` (inclusive) to `b` (exclusive), clamped. -/
def jsSlice (s : List Char) (a b : Nat) : List Char :=
  (s.take b).drop a

/-- The double-quote character. -/
def quoteChar : Char := Char.ofNat 34

/-- The single-quote character. -/
def aposChar : Char := Char.ofNat 39

/-- Model of JS `String.prototype.replaceAll(c, rep)` for a
single-character search string: each occurrence of `c` is replaced by
`rep`. -/
def replaceAllChar (c : Char) (rep : List Char) (s : List Char) : List Char :=
  s.flatMap (fun x => if x = c then rep else [x])

/-- Embeds `escapeHtml` (fyrechat.js:354-361): five successive
`replaceAll` passes, ampersand first. -/
def escapeHtml (s : List Char) : List Char :=
  replaceAllChar aposChar ("&#039;".toList)
    (replaceAllChar quoteChar ("&quot;".toList)
      (replaceAllChar '>' ("&gt;".toList)
        (replaceAllChar '<' ("&lt;".toList)
          (replaceAllChar '&' ("&amp;".toList) s))))

/-- Per-character escaping table stated from the spec's wording
("replaces every `&`, `<`, `>`, `\x22` and single-quote character with
an entity"); compared with the sequential-pass `escapeHtml` below. -/
def escChar (c : Char) : List Char :=
  if c = '&' then ("&amp;".toList)
  else if c = '<' then ("&lt;".toList)
  else if c = '>' then ("&gt;".toList)
  else if c = quoteChar then ("&quot;".toList)
  else if c = aposChar then ("&#039;".toList)
  else [c]

/-- Association-list lookup returning the value of the *last* entry
with the given key: models reading `obj[k]` from a JS object built by
assignments, and `Map.prototype.get` for a map built by `set` calls
(modelled as appends), since a later `set`/assignment overwrites. -/
def lastAssoc {α β : Type} [DecidableEq α] (m : List (α × β)) (k : α) : Option β :=
  ((m.filter (fun p => decide (p.1 = k))).getLast?).map Prod.snd

/-- Model of the JS `x || d` default pattern for an optional string
read from a tag object: `undefined` and the empty string are falsy and
fall back to the default. -/
def jsOrDefault (v : Option (List Char)) (d : List Char) : List Char :=
  match v with
  | some s => if s = [] then d else s
  | none => d

/-! ## TagDecoder -/

/-- One pass of the `parseTags` loop body (fyrechat.js:192-196): split
the segment on the first `=`; if no `=` is present the key is the
whole segment and the value is empty. -/
def parseTagPair (p : List Char) : List Char × List Char :=
  let k := p.takeWhile (fun c => c ≠ '=')
  if k.length = p.length then (p, []) else (k, p.drop (k.length + 1))

/-- Embeds `parseTags` (fyrechat.js:190-199) as the association list
of key/value pairs in segment order; the JS object's read semantics
are recovered with `lastAssoc` (assignment `out[k] = v` means the last
occurrence of a key wins). -/
def parseTags (raw : List Char) : List (List Char × List Char) :=
  (splitOnChar ';' raw).map parseTagPair

/-! ## EmoteSegmenter -/

/-- An emote range parsed from the emotes tag: 0-indexed inclusive
code-unit offsets (`endIdx` embeds the source's `end`, a reserved word
in Lean). -/
structure EmoteRange where
  start : Nat
  endIdx : Nat
  id : List Char
deriving DecidableEq, Repr

/-- Digit-string to number conversion used by `jsNumber`. -/
def digitsToNat (ds : List Char) : Option Nat :=
  if ds ≠ [] ∧ ds.all (fun c => c.isDigit) then
    some (ds.foldl (fun a c => a * 10 + (c.toNat - 48)) 0)
  else none

/-- Models the JS `Number(x)` coercion combined with the
`Number.isFinite` guard of fyrechat.js:217, restricted to the domain
that can actually reach it: the argument is a piece of a `-`-split
string (so it never contains `-`), `Number(undefined)` is `NaN`
(`none`), `Number("")` is `0`, an optional leading `+` is allowed, and
any non-digit content yields `NaN` (`none`).  Exotic numeric forms
(hex, exponents, fractions, embedded whitespace) are outside the
modelled domain. -/
def jsNumber : Option (List Char) → Option Nat
  | none => none
  | some [] => some 0
  | some ('+' :: ds) => digitsToNat ds
  | some ds => digitsToNat ds

/-- Embeds the inner loop of fyrechat.js:214-218: one `start-end`
location for a given emote id; pieces after a second `-` are ignored
by the JS destructuring, and the range is kept only when both offsets
are finite numbers. -/
def parseLoc (i : List Char) (loc : List Char) : Option EmoteRange :=
  match jsNumber (some ((splitOnChar '-' loc).headD [])),
      jsNumber (splitOnChar '-' loc)[1]? with
  | some s, some e => some ⟨s, e, i⟩
  | some _, none => none
  | none, _ => none

/-- Embeds the outer loop body of fyrechat.js:210-219 for one
`id:loc,loc` group: the JS destructuring `const [id, locs] =
def.split(":")` takes the first two pieces, and `if (!id || !locs)
continue` skips groups with a missing or empty id or location list. -/
def groupRanges (g : List Char) : List EmoteRange :=
  match (splitOnChar ':' g)[1]? with
  | none => []
  | some locs =>
      if (splitOnChar ':' g).headD [] = [] ∨ locs = [] then []
      else (splitOnChar ',' locs).filterMap (parseLoc ((splitOnChar ':' g).headD []))

/-- Embeds the range-collection phase of `buildMessageHtmlParts`
(fyrechat.js:209-219): split the tag on `/`, drop empty groups
(`filter(Boolean)`), and collect each group's ranges in order. -/
def parseRanges (tag : List Char) : List EmoteRange :=
  ((splitOnChar '/' tag).filter (fun d => d ≠ [])).flatMap groupRanges

/-- Embeds `ranges.sort((a,b) => a.start - b.start)` (fyrechat.js:222).
`Array.prototype.sort` is specified as a stable comparison sort, and a
stable sort's output is determined by the comparator and the input
order, so any stable ascending-by-`start` sort is a faithful model;
insertion sort is used because it evaluates by reduction. -/
def sortRanges (rs : List EmoteRange) : List EmoteRange :=
  List.insertionSort (fun a b => a.start ≤ b.start) rs

/-- The spec's `Segment` datatype: literal text or an emote
reference. -/
inductive Seg where
  | lit (s : List Char)
  | emote (i : List Char)
deriving DecidableEq, Repr

/-- The `<img>` part pushed for an emote reference
(fyrechat.js:229). -/
def imgPart (i : List Char) : List Char :=
  ("<img class=\"emote\" alt=\"\" src=\"https://static-cdn.jtvnw.net/emoticons/v2/".toList)
    ++ i ++ ("/default/dark/1.0\">".toList)

/-- Rendering of one segment to the HTML part string the source
actually pushes: literals are HTML-escaped, emotes become `<img>`
tags. -/
def renderSeg : Seg → List Char
  | Seg.lit s => escapeHtml s
  | Seg.emote i => imgPart i

/-- The cursor walk of fyrechat.js:224-234 at the segment level:
before each range a literal for the uncovered gap (if any), then the
emote reference, cursor moved to `end + 1`; trailing literal after the
last range. -/
def walkSegs (text : List Char) : Nat → List EmoteRange → List Seg
  | cursor, [] =>
      if cursor < text.length then [Seg.lit (text.drop cursor)] else []
  | cursor, r :: rs =>
      (if r.start > cursor then [Seg.lit (jsSlice text cursor r.start)] else [])
        ++ Seg.emote r.id :: walkSegs text (r.endIdx + 1) rs

/-- The same walk producing the HTML part strings the source pushes
(escaped literals and `<img>` tags). -/
def walkParts (text : List Char) : Nat → List EmoteRange → List (List Char)
  | cursor, [] =>
      if cursor < text.length then [escapeHtml (text.drop cursor)] else []
  | cursor, r :: rs =>
      (if r.start > cursor then [escapeHtml (jsSlice text cursor r.start)] else [])
        ++ imgPart r.id :: walkParts text (r.endIdx + 1) rs

/-- Embeds `buildMessageHtmlParts` (fyrechat.js:204-235): empty tag
short-circuits to a single escaped literal; otherwise parse ranges,
and if none survive return a single escaped literal, else run the
sorted cursor walk. -/
def buildMessageHtmlParts (text emotesTag : List Char) : List (List Char) :=
  if emotesTag = [] then [escapeHtml text]
  else if parseRanges emotesTag = [] then [escapeHtml text]
  else walkParts text 0 (sortRanges (parseRanges emotesTag))

/-- Variant of `buildMessageHtmlParts` at the spec's `Segment` level (identical
control flow, literals kept unescaped); related to the source-level
function by `buildMessageHtmlParts_eq_render`. -/
def buildSegs (text emotesTag : List Char) : List Seg :=
  if emotesTag = [] then [Seg.lit text]
  else if parseRanges emotesTag = [] then [Seg.lit text]
  else walkSegs text 0 (sortRanges (parseRanges emotesTag))

/-- Concatenation of the literal segments' text, skipping emote
references. -/
def litConcat : List Seg → List Char
  | [] => []
  | Seg.lit s :: ss => s ++ litConcat ss
  | Seg.emote _ :: ss => litConcat ss

/-- Whether position `i` of the text lies inside some range of `rs`
(inclusive bounds, as transmitted by the protocol). -/
def covered (rs : List EmoteRange) (i : Nat) : Bool :=
  rs.any (fun r => decide (r.start ≤ i) && decide (i ≤ r.endIdx))

/-- The characters of `text` at positions `≥ c` not covered by any
range, in order: this captures the spec wording that the literal text
is the text with the emote-covered substrings removed, generalized by
a left cursor for the walk induction. -/
def removeCoveredFrom (text : List Char) (c : Nat) (rs : List EmoteRange) : List Char :=
  ((List.range text.length).filter
      (fun i => decide (c ≤ i) && ! covered rs i)).filterMap
    (fun i => text[i]?)

/-- The input `text` with all emote-covered positions removed. -/
def removeCovered (text : List Char) (rs : List EmoteRange) : List Char :=
  removeCoveredFrom text 0 rs

/-- Substitute the emote-covered substrings back into a segment list:
each `Literal` contributes its own text, and the `k`-th `EmoteRef`
contributes the substring covered by the `k`-th range.  Producing
exactly `text` again means the segments cover `[0, len text)`
contiguously with no gaps or overlaps. -/
def reassemble (text : List Char) : List Seg → List EmoteRange → List Char
  | [], _ => []
  | Seg.lit s :: ss, rs => s ++ reassemble text ss rs
  | Seg.emote _ :: ss, r :: rs =>
      jsSlice text r.start (r.endIdx + 1) ++ reassemble text ss rs
  | Seg.emote _ :: ss, [] => reassemble text ss []

/-- The emote id carried by an `EmoteRef` segment, `none` for
literals. -/
def emoteId : Seg → Option (List Char)
  | Seg.lit _ => none
  | Seg.emote i => some i

/-! ## MessageParser -/

/-- A parsed chat event (the source's
`{name, color, htmlParts, badges, roomId}` record). -/
structure ChatEvent where
  name : List Char
  color : List Char
  htmlParts : List (List Char)
  badges : List Char
  roomId : List Char
deriving DecidableEq, Repr

/-- Embeds the tag-stripping step of `parsePrivmsg`
(fyrechat.js:164-169): on a leading `@`, decode up to the first space
and keep the remainder as the working line.  When no space exists, JS
computes `rest.slice(1, -1)` (drop the first and last code units) for
the tag blob and `rest.slice(0)` leaves the line unchanged. -/
def stripTagHead (line : List Char) :
    List (List Char × List Char) × List Char :=
  match line with
  | '@' :: _ =>
      match jsIndexOf ([' ']) line with
      | some i => (parseTags ((line.drop 1).take (i - 1)), line.drop (i + 1))
      | none => (parseTags ((line.drop 1).dropLast), line)
  | _ => ([], line)

/-- Embeds `parsePrivmsg` (fyrechat.js:160-188): strip the optional
tag head, require the `" :"` message delimiter (otherwise no event),
then assemble the event from tag defaults and the segmented text. -/
def parsePrivmsg (line : List Char) : Option ChatEvent :=
  let st := stripTagHead line
  let tags := st.1
  let rest := st.2
  match jsIndexOf (" :".toList) rest with
  | none => none
  | some i =>
      let text := rest.drop (i + 2)
      let name := jsOrDefault (lastAssoc tags ("display-name".toList)) ("Unknown".toList)
      let color := jsOrDefault (lastAssoc tags ("color".toList)) ("#ffffff".toList)
      let emotes := jsOrDefault (lastAssoc tags ("emotes".toList)) []
      let badges := jsOrDefault (lastAssoc tags ("badges".toList)) []
      let roomId := jsOrDefault (lastAssoc tags ("room-id".toList)) []
      some ⟨name, color, buildMessageHtmlParts text emotes, badges, roomId⟩

/-! ## BadgeResolver and LookupCache

The badge cache (fyrechat.js:80-84) and `ensureBadgesLoaded`
(fyrechat.js:253-277).  A badge table (`Map("set/version" -> url)`) is
an association list read with `lastAssoc`.  Since `ensureBadgesLoaded`
is an `async` function whose callers do not serialize it, it is
modelled as a small-step machine: one atomic step per run-to-`await`
block of the JS event loop, so that arbitrary interleavings of
concurrent invocations can be analysed.  (The two consecutive awaits
`await fetch(..)` / `await r.json()` are collapsed into a single
suspension point: no shared cache state is read or written between
them.) -/

/-- A badge table: `"setId/versionId"` keys to image-url values. -/
def Tbl : Type := List (List Char × List Char)

instance : DecidableEq Tbl := by unfold Tbl; infer_instance

instance : Append Tbl := ⟨fun a b => List.append a b⟩

/-- The mutable badge cache (fyrechat.js:80-84): `global` is `null`
until first assigned, `channels` maps broadcaster ids to tables
(`Map.set` modelled as append, read with `lastAssoc`), and
`globalLoaded` is the load-once flag. -/
structure CacheState where
  globalLoaded : Bool
  global : Option Tbl
  channels : List (List Char × Tbl)
deriving DecidableEq

/-- Identifies one of the two fetch endpoints of
`ensureBadgesLoaded`: the global badge table, or the channel table of
one broadcaster id. -/
inductive FetchKey where
  | global : FetchKey
  | channel (bid : List Char) : FetchKey
deriving DecidableEq, Repr

/-- Program counter of one in-flight `ensureBadgesLoaded` invocation,
with one state per run-to-`await` block. -/
inductive TPc where
  | start
  | awaitGlobal
  | chanCheck
  | awaitChan
  | done
deriving DecidableEq, Repr

/-- One in-flight `ensureBadgesLoaded(broadcasterId)` invocation. -/
structure Thread where
  bid : List Char
  pc : TPc
deriving DecidableEq, Repr

/-- One atomic block of `ensureBadgesLoaded` (fyrechat.js:253-277).
`proxyOn` is the truthiness of `cfg.badgeProxy`; `res` is the outcome
of the fetch a resuming `await` step is waiting on (`none` models a
network error or non-`ok` response, which the source turns into `new
Map()`).  Returns the new cache, the new thread state, and the fetch
requests issued by this block.

* `start`: no proxy means return; otherwise the global check — the
  `globalLoaded` flag is set *before* the `await`, in the same block
  that issues the global fetch.
* `awaitGlobal`: store the fetched (or empty) global table.
* `chanCheck`: falsy broadcaster id or an already-present channel
  entry means return; otherwise issue the channel fetch.  The channel
  slot is *not* marked here — `channels.set` happens only after the
  fetch resolves.
* `awaitChan`: store the fetched (or empty) channel table. -/
def ensureStep (proxyOn : Bool) (st : CacheState) (t : Thread) (res : Option Tbl) :
    CacheState × Thread × List FetchKey :=
  match t.pc with
  | TPc.start =>
      if proxyOn = false then (st, { t with pc := TPc.done }, [])
      else if st.globalLoaded = false then
        ({ st with globalLoaded := true }, { t with pc := TPc.awaitGlobal }, [FetchKey.global])
      else (st, { t with pc := TPc.chanCheck }, [])
  | TPc.awaitGlobal =>
      ({ st with global := some (res.getD []) }, { t with pc := TPc.chanCheck }, [])
  | TPc.chanCheck =>
      if t.bid = [] then (st, { t with pc := TPc.done }, [])
      else if (lastAssoc st.channels t.bid).isSome then (st, { t with pc := TPc.done }, [])
      else (st, { t with pc := TPc.awaitChan }, [FetchKey.channel t.bid])
  | TPc.awaitChan =>
      ({ st with channels := st.channels ++ [(t.bid, res.getD [])] },
        { t with pc := TPc.done }, [])
  | TPc.done => (st, t, [])

/-- The whole event-loop world: cache state, the in-flight
invocations, and the log of fetch requests issued so far. -/
structure World where
  cache : CacheState
  threads : List Thread
  log : List FetchKey
deriving DecidableEq

/-- One scheduler action: a new resolution request arrives (a fresh
`ensureBadgesLoaded(bid)` invocation is spawned), or thread `i` runs
its next atomic block (with `res` the outcome of the fetch it was
awaiting, if any). -/
inductive SchedAct where
  | spawn (bid : List Char)
  | step (i : Nat) (res : Option Tbl)
deriving DecidableEq

/-- Execute one scheduler action. -/
def runAct (proxyOn : Bool) (w : World) : SchedAct → World
  | SchedAct.spawn bid => { w with threads := w.threads ++ [⟨bid, TPc.start⟩] }
  | SchedAct.step i res =>
      match w.threads[i]? with
      | none => w
      | some t =>
          { cache := (ensureStep proxyOn w.cache t res).1,
            threads := w.threads.set i (ensureStep proxyOn w.cache t res).2.1,
            log := w.log ++ (ensureStep proxyOn w.cache t res).2.2 }

/-- Execute a whole schedule. -/
def run (proxyOn : Bool) (w : World) (sched : List SchedAct) : World :=
  sched.foldl (runAct proxyOn) w

/-- The run-to-completion global-table step of `ensureBadgesLoaded`
(fyrechat.js:257-265): when the flag is unset, set it and store the
fetched (or, on failure, empty) global table, having issued the global
fetch. -/
def ensureGlobalSeq (st : CacheState) (rg : Option Tbl) :
    CacheState × List FetchKey :=
  if st.globalLoaded = false then
    ({ st with globalLoaded := true, global := some (rg.getD []) },
      [FetchKey.global])
  else (st, [])

/-- Run-to-completion semantics of `ensureBadgesLoaded` with no interleaving (the
sequential semantics: each resolution request finishes before the next
begins).  `rg`/`rc` are the outcomes of the global and channel fetches
(`none` models a failed fetch, which the source stores as an empty
table).  Returns the resulting cache and the fetches issued. -/
def ensureSeq (proxyOn : Bool) (st : CacheState) (bid : List Char)
    (rg rc : Option Tbl) : CacheState × List FetchKey :=
  if proxyOn = false then (st, [])
  else if bid = [] then ensureGlobalSeq st rg
  else if (lastAssoc (ensureGlobalSeq st rg).1.channels bid).isSome then
    ensureGlobalSeq st rg
  else
    ({ (ensureGlobalSeq st rg).1 with
        channels := (ensureGlobalSeq st rg).1.channels ++ [(bid, rc.getD [])] },
      (ensureGlobalSeq st rg).2 ++ [FetchKey.channel bid])

/-- A sequence of sequential resolution requests
(`broadcasterId`, global-fetch outcome, channel-fetch outcome). -/
def seqRun (proxyOn : Bool) (st : CacheState) :
    List (List Char × Option Tbl × Option Tbl) → CacheState × List FetchKey
  | [] => (st, [])
  | c :: cs =>
      ((seqRun proxyOn (ensureSeq proxyOn st c.1 c.2.1 c.2.2).1 cs).1,
        (ensureSeq proxyOn st c.1 c.2.1 c.2.2).2
          ++ (seqRun proxyOn (ensureSeq proxyOn st c.1 c.2.1 c.2.2).1 cs).2)

/-- Models `const url = chanMap.get(key) || globalMap.get(key)`
(fyrechat.js:290): JS `||` falls back to the global table when the
channel lookup is `undefined` *or falsy* — and the only falsy string
is the empty string. -/
def jsOrGet (chanMap globalMap : Tbl) (key : List Char) : Option (List Char) :=
  match lastAssoc chanMap key with
  | some u => if u = [] then lastAssoc globalMap key else some u
  | none => lastAssoc globalMap key

/-- The per-key body of the `buildBadgesFragment` loop
(fyrechat.js:289-291): resolve via `jsOrGet`, and `if (!url) continue`
drops an `undefined` or empty result. -/
def resolveKey (chanMap globalMap : Tbl) (key : List Char) : Option (List Char) :=
  match jsOrGet chanMap globalMap key with
  | some u => if u = [] then none else some u
  | none => none

/-- Embeds `buildBadgesFragment` (fyrechat.js:284-300) as the ordered
list of resolved image urls: `globalMap` is `badgeCache.global || new
Map()`, `chanMap` is the broadcaster's table when the id is truthy and
present (`new Map()` otherwise), and each key resolves via
`resolveKey` in input order. -/
def buildBadgesFragment (keys : List (List Char)) (bid : List Char)
    (cache : CacheState) : List (List Char) :=
  keys.filterMap
    (resolveKey (if bid = [] then [] else (lastAssoc cache.channels bid).getD [])
      (cache.global.getD []))

/-- Per-key resolution stated from the (amended) spec wording: the
channel table's value when present there *with a non-empty value*,
otherwise the global table's value when present *and non-empty*,
otherwise the key is dropped. -/
def resolveKeySpec (chanMap globalMap : Tbl) (key : List Char) : Option (List Char) :=
  match lastAssoc chanMap key with
  | some u =>
      if u ≠ [] then some u
      else
        match lastAssoc globalMap key with
        | some w => if w ≠ [] then some w else none
        | none => none
  | none =>
      match lastAssoc globalMap key with
      | some w => if w ≠ [] then some w else none
      | none => none

/-! ## Basic lemmas -/

theorem lastAssoc_nil {α β : Type} [DecidableEq α] (k : α) :
    lastAssoc ([] : List (α × β)) k = none := rfl

theorem lastAssoc_append_single {α β : Type} [DecidableEq α]
    (m : List (α × β)) (b : α) (t : β) (k : α) :
    lastAssoc (m ++ [(b, t)]) k = if b = k then some t else lastAssoc m k := by
  unfold lastAssoc
  rw [List.filter_append]
  by_cases h : b = k
  · simp [h, List.getLast?_append]
  · simp [h]

theorem slice_glue (l : List Char) (a b : Nat) (hab : a ≤ b) :
    jsSlice l a b ++ l.drop b = l.drop a := by
  unfold jsSlice
  rw [List.drop_take]
  have hd : l.drop b = (l.drop a).drop (b - a) := by
    rw [List.drop_drop]
    congr 1
    omega
  rw [hd, List.take_append_drop]

theorem litConcat_append (xs ys : List Seg) :
    litConcat (xs ++ ys) = litConcat xs ++ litConcat ys := by
  induction xs with
  | nil => rfl
  | cons x xs ih => cases x <;> simp [litConcat, ih]

theorem walkParts_eq_render (text : List Char) :
    ∀ rs c, walkParts text c rs = (walkSegs text c rs).map renderSeg := by
  intro rs
  induction rs with
  | nil =>
      intro c
      unfold walkParts walkSegs
      split <;> simp [renderSeg]
  | cons r rs ih =>
      intro c
      unfold walkParts walkSegs
      split <;> simp [renderSeg, ih]

theorem buildMessageHtmlParts_eq_render (text tag : List Char) :
    buildMessageHtmlParts text tag = (buildSegs text tag).map renderSeg := by
  unfold buildMessageHtmlParts buildSegs
  split
  · simp [renderSeg]
  · split
    · simp [renderSeg]
    · exact walkParts_eq_render text _ 0

theorem walkSegs_emotes (text : List Char) :
    ∀ rs c, (walkSegs text c rs).filterMap emoteId = rs.map EmoteRange.id := by
  intro rs
  induction rs with
  | nil =>
      intro c
      unfold walkSegs
      split <;> simp [emoteId]
  | cons r rs ih =>
      intro c
      unfold walkSegs
      split <;> simp [emoteId, ih]

theorem buildSegs_emotes (text tag : List Char) :
    (buildSegs text tag).filterMap emoteId
      = (sortRanges (parseRanges tag)).map EmoteRange.id := by
  unfold buildSegs
  split
  · rename_i h
    have h0 : parseRanges ([] : List Char) = [] := rfl
    rw [h, h0]
    simp [emoteId, sortRanges, List.insertionSort]
  · split
    · rename_i h
      rw [h]
      simp [emoteId, sortRanges, List.insertionSort]
    · exact walkSegs_emotes text _ 0

/-! ## escapeHtml lemmas -/

theorem escapeHtml_append (a b : List Char) :
    escapeHtml (a ++ b) = escapeHtml a ++ escapeHtml b := by
  simp [escapeHtml, replaceAllChar, List.flatMap_append]

theorem escapeHtml_single (c : Char) : escapeHtml [c] = escChar c := by
  by_cases h1 : c = '&'
  · subst h1; rfl
  · by_cases h2 : c = '<'
    · subst h2; rfl
    · by_cases h3 : c = '>'
      · subst h3; rfl
      · by_cases h4 : c = quoteChar
        · subst h4; rfl
        · by_cases h5 : c = aposChar
          · subst h5; rfl
          · simp [escapeHtml, replaceAllChar, escChar, h1, h2, h3, h4, h5]

theorem escapeHtml_eq_flatMap (s : List Char) :
    escapeHtml s = s.flatMap escChar := by
  induction s with
  | nil => rfl
  | cons c s ih =>
      have hsplit : (c :: s) = [c] ++ s := rfl
      rw [hsplit, escapeHtml_append, List.flatMap_append, ih, escapeHtml_single]
      congr 1
      simp

theorem escChar_no_angle (c : Char) : '<' ∉ escChar c ∧ '>' ∉ escChar c := by
  unfold escChar
  split
  · constructor <;> decide
  · split
    · constructor <;> decide
    · split
      · constructor <;> decide
      · split
        · constructor <;> decide
        · split
          · constructor <;> decide
          · rename_i h1 h2 h3 h4 h5
            constructor <;> simp <;> intro h
            · exact h2 h.symm
            · exact h3 h.symm

theorem escapeHtml_no_angle (s : List Char) :
    '<' ∉ escapeHtml s ∧ '>' ∉ escapeHtml s := by
  rw [escapeHtml_eq_flatMap]
  constructor <;>
    · intro hmem
      rcases List.mem_flatMap.mp hmem with ⟨c, _, hc⟩
      rcases escChar_no_angle c with ⟨h1, h2⟩
      first
        | exact h1 hc
        | exact h2 hc

/-! ## Coverage lemmas -/

theorem filterMap_get_range' (text : List Char) :
    ∀ n a, (List.range' a n).filterMap (fun i => text[i]?)
      = (text.drop a).take n := by
  intro n
  induction n with
  | zero => intro a; simp
  | succ n ih =>
      intro a
      rw [List.range'_succ]
      by_cases h : a < text.length
      · have hget : text[a]? = some (text[a]) := List.getElem?_eq_getElem h
        have hdrop : text.drop a = text[a] :: text.drop (a + 1) :=
          List.drop_eq_getElem_cons h
        simp only [List.filterMap_cons, hget]
        rw [ih (a + 1), hdrop]
        rfl
      · have hge : text.length ≤ a := Nat.le_of_not_lt h
        have hget : text[a]? = none := by
          simp [List.getElem?_eq_none_iff, hge]
        simp only [List.filterMap_cons, hget]
        rw [ih (a + 1)]
        rw [List.drop_eq_nil_of_le hge, List.drop_eq_nil_of_le (by omega)]
        simp

theorem filter_ge_filterMap_get (text : List Char) (c : Nat) :
    ((List.range text.length).filter (fun i => decide (c ≤ i))).filterMap
      (fun i => text[i]?) = text.drop c := by
  by_cases h : c ≤ text.length
  · have hsplit : List.range text.length
        = List.range' 0 c ++ List.range' c (text.length - c) := by
      rw [List.range_eq_range']
      have hx := List.range'_append 0 c (text.length - c) 1
      simp only [Nat.one_mul, Nat.zero_add] at hx
      have hy : text.length - c + c = text.length := by omega
      rw [hy] at hx
      exact hx.symm
    rw [hsplit, List.filter_append]
    have h1 : (List.range' 0 c).filter (fun i => decide (c ≤ i)) = [] := by
      rw [List.filter_eq_nil_iff]
      intro a ha
      have := List.mem_range'_1.mp ha
      simp
      omega
    have h2 : (List.range' c (text.length - c)).filter (fun i => decide (c ≤ i))
        = List.range' c (text.length - c) := by
      rw [List.filter_eq_self]
      intro a ha
      have := List.mem_range'_1.mp ha
      simp
      omega
    rw [h1, h2, List.nil_append, filterMap_get_range']
    exact List.take_of_length_le (by rw [List.length_drop])
  · have h1 : (List.range text.length).filter (fun i => decide (c ≤ i)) = [] := by
      rw [List.filter_eq_nil_iff]
      intro a ha
      have := List.mem_range.mp ha
      simp
      omega
    rw [h1, List.drop_eq_nil_of_le (by omega)]
    rfl

theorem removeCoveredFrom_nil (text : List Char) (c : Nat) :
    removeCoveredFrom text c [] = text.drop c := by
  unfold removeCoveredFrom
  have hcong : (List.range text.length).filter
        (fun i => decide (c ≤ i) && ! covered [] i)
      = (List.range text.length).filter (fun i => decide (c ≤ i)) := by
    apply List.filter_congr
    intro i _
    simp [covered]
  rw [hcong, filter_ge_filterMap_get]

theorem range_split (t m : Nat) (h : t ≤ m) :
    List.range m = List.range' 0 t ++ List.range' t (m - t) := by
  rw [List.range_eq_range']
  have hx := List.range'_append 0 t (m - t) 1
  simp only [Nat.one_mul, Nat.zero_add] at hx
  have hy : m - t + t = m := by omega
  rw [hy] at hx
  exact hx.symm

theorem filter_ge_filterMap_get' (text : List Char) (c m : Nat) :
    ((List.range m).filter (fun i => decide (c ≤ i))).filterMap
      (fun i => text[i]?) = jsSlice text c m := by
  unfold jsSlice
  rw [List.drop_take]
  by_cases h : c ≤ m
  · rw [range_split c m h, List.filter_append]
    have h1 : (List.range' 0 c).filter (fun i => decide (c ≤ i)) = [] := by
      rw [List.filter_eq_nil_iff]
      intro a ha
      have := List.mem_range'_1.mp ha
      simp
      omega
    have h2 : (List.range' c (m - c)).filter (fun i => decide (c ≤ i))
        = List.range' c (m - c) := by
      rw [List.filter_eq_self]
      intro a ha
      have := List.mem_range'_1.mp ha
      simp
      omega
    rw [h1, h2, List.nil_append, filterMap_get_range']
  · have h1 : (List.range m).filter (fun i => decide (c ≤ i)) = [] := by
      rw [List.filter_eq_nil_iff]
      intro a ha
      have := List.mem_range.mp ha
      simp
      omega
    rw [h1]
    have : m - c = 0 := by omega
    rw [this, List.take_zero]
    rfl

theorem removeCoveredFrom_cons (text : List Char) (c : Nat) (r : EmoteRange)
    (rs : List EmoteRange) (hcr : c ≤ r.start) (hse : r.start ≤ r.endIdx)
    (hlen : r.endIdx < text.length) (hsep : ∀ q ∈ rs, r.endIdx < q.start) :
    removeCoveredFrom text c (r :: rs)
      = jsSlice text c r.start ++ removeCoveredFrom text (r.endIdx + 1) rs := by
  unfold removeCoveredFrom
  have ht : r.start ≤ text.length := by omega
  rw [range_split r.start text.length ht, List.filter_append, List.filterMap_append]
  congr 1
  · -- positions below r.start: nothing is covered there
    have hcong : (List.range' 0 r.start).filter
          (fun i => decide (c ≤ i) && ! covered (r :: rs) i)
        = (List.range' 0 r.start).filter (fun i => decide (c ≤ i)) := by
      apply List.filter_congr
      intro i hi
      have hit : i < r.start := by
        have := List.mem_range'_1.mp hi
        omega
      have hcov : covered (r :: rs) i = false := by
        simp only [covered, List.any_cons, Bool.or_eq_false_iff]
        constructor
        · simp
          omega
        · simp only [List.any_eq_false]
          intro q hq
          have := hsep q hq
          simp
          omega
      rw [hcov]
      simp
    rw [hcong]
    have := filter_ge_filterMap_get' text c r.start
    rw [List.range_eq_range'] at this
    exact this
  · -- positions from r.start on: covered by r up to endIdx, then governed by rs
    have hcong : (List.range' r.start (text.length - r.start)).filter
          (fun i => decide (c ≤ i) && ! covered (r :: rs) i)
        = (List.range' r.start (text.length - r.start)).filter
            (fun i => decide (r.endIdx + 1 ≤ i) && ! covered rs i) := by
      apply List.filter_congr
      intro i hi
      have hit : r.start ≤ i := by
        have := List.mem_range'_1.mp hi
        omega
      have hc : decide (c ≤ i) = true := by
        simp
        omega
      simp only [covered, List.any_cons, hc, Bool.true_and]
      by_cases hie : i ≤ r.endIdx
      · have h1 : (decide (r.start ≤ i) && decide (i ≤ r.endIdx)) = true := by
          simp [hit, hie]
        have h2 : decide (r.endIdx + 1 ≤ i) = false := by
          simp
          omega
        rw [h1, h2]
        simp
      · have h1 : (decide (r.start ≤ i) && decide (i ≤ r.endIdx)) = false := by
          simp [hie]
        have h2 : decide (r.endIdx + 1 ≤ i) = true := by
          simp
          omega
        rw [h1, h2]
        simp [covered]
    rw [hcong, List.filter_append]
    have h0 : (List.range' 0 r.start).filter
          (fun i => decide (r.endIdx + 1 ≤ i) && ! covered rs i) = [] := by
      rw [List.filter_eq_nil_iff]
      intro a ha
      have := List.mem_range'_1.mp ha
      simp
      omega
    rw [h0, List.nil_append]

theorem walkSegs_lit (text : List Char) :
    ∀ rs c, rs.Pairwise (fun a b => a.endIdx < b.start) →
      (∀ r ∈ rs, c ≤ r.start ∧ r.start ≤ r.endIdx ∧ r.endIdx < text.length) →
      litConcat (walkSegs text c rs) = removeCoveredFrom text c rs := by
  intro rs
  induction rs with
  | nil =>
      intro c _ _
      rw [removeCoveredFrom_nil]
      unfold walkSegs
      split
      · simp [litConcat]
      · rename_i h
        rw [List.drop_eq_nil_of_le (by omega)]
        rfl
  | cons r rs ih =>
      intro c hp hb
      obtain ⟨hcr, hse, hlen⟩ := hb r (List.mem_cons_self r rs)
      have hsep : ∀ q ∈ rs, r.endIdx < q.start := (List.pairwise_cons.mp hp).1
      rw [removeCoveredFrom_cons text c r rs hcr hse hlen hsep]
      unfold walkSegs
      rw [litConcat_append]
      have hrec := ih (r.endIdx + 1) (List.pairwise_cons.mp hp).2
        (fun q hq => ⟨hsep q hq, (hb q (List.mem_cons_of_mem r hq)).2⟩)
      split
      · simp only [litConcat, List.nil_append]
        rw [hrec]
        simp
      · rename_i hns
        have hstart : r.start = c := by omega
        simp only [litConcat, List.nil_append]
        rw [hrec, hstart]
        have : jsSlice text c c = [] := by
          unfold jsSlice
          apply List.drop_eq_nil_of_le
          rw [List.length_take]
          omega
        rw [this, List.nil_append]

theorem walkSegs_reassemble (text : List Char) :
    ∀ rs c, rs.Pairwise (fun a b => a.endIdx < b.start) →
      (∀ r ∈ rs, c ≤ r.start ∧ r.start ≤ r.endIdx ∧ r.endIdx < text.length) →
      reassemble text (walkSegs text c rs) rs = text.drop c := by
  intro rs
  induction rs with
  | nil =>
      intro c _ _
      unfold walkSegs
      split
      · simp [reassemble]
      · rename_i h
        rw [List.drop_eq_nil_of_le (by omega)]
        rfl
  | cons r rs ih =>
      intro c hp hb
      obtain ⟨hcr, hse, hlen⟩ := hb r (List.mem_cons_self r rs)
      have hsep : ∀ q ∈ rs, r.endIdx < q.start := (List.pairwise_cons.mp hp).1
      have hrec := ih (r.endIdx + 1) (List.pairwise_cons.mp hp).2
        (fun q hq => ⟨hsep q hq, (hb q (List.mem_cons_of_mem r hq)).2⟩)
      unfold walkSegs
      split
      · simp only [List.cons_append, List.nil_append, reassemble]
        rw [hrec]
        rw [slice_glue text r.start (r.endIdx + 1) (by omega)]
        exact slice_glue text c r.start hcr
      · rename_i hns
        have hstart : r.start = c := by omega
        simp only [List.nil_append, reassemble]
        rw [hrec, hstart]
        exact slice_glue text c (r.endIdx + 1) (by omega)

instance : IsTotal EmoteRange (fun a b => a.start ≤ b.start) :=
  ⟨fun a b => Nat.le_total a.start b.start⟩

instance : IsTrans EmoteRange (fun a b => a.start ≤ b.start) :=
  ⟨fun _ _ _ hab hbc => Nat.le_trans hab hbc⟩

theorem sortRanges_perm (rs : List EmoteRange) : (sortRanges rs).Perm rs :=
  List.perm_insertionSort _ rs

theorem covered_perm {rs rs' : List EmoteRange} (h : rs.Perm rs') (i : Nat) :
    covered rs i = covered rs' i := by
  unfold covered
  cases hc : rs'.any (fun r => decide (r.start ≤ i) && decide (i ≤ r.endIdx)) with
  | true =>
      rcases List.any_eq_true.mp hc with ⟨r, hr, hpr⟩
      exact List.any_eq_true.mpr ⟨r, h.mem_iff.mpr hr, hpr⟩
  | false =>
      rw [List.any_eq_false] at hc ⊢
      intro r hr
      exact hc r (h.mem_iff.mp hr)

theorem removeCoveredFrom_perm (text : List Char) (c : Nat)
    {rs rs' : List EmoteRange} (h : rs.Perm rs') :
    removeCoveredFrom text c rs = removeCoveredFrom text c rs' := by
  unfold removeCoveredFrom
  congr 1
  apply List.filter_congr
  intro i _
  rw [covered_perm h]

theorem sortRanges_pairwise_sep (rs : List EmoteRange)
    (hb : ∀ r ∈ rs, r.start ≤ r.endIdx)
    (hd : rs.Pairwise (fun a b => a.endIdx < b.start ∨ b.endIdx < a.start)) :
    (sortRanges rs).Pairwise (fun a b => a.endIdx < b.start) := by
  have hsorted : (sortRanges rs).Pairwise (fun a b => a.start ≤ b.start) :=
    List.sorted_insertionSort _ rs
  have hsymm : ∀ {x y : EmoteRange},
      (x.endIdx < y.start ∨ y.endIdx < x.start) →
      (y.endIdx < x.start ∨ x.endIdx < y.start) := fun h => h.elim Or.inr Or.inl
  have hd' : (sortRanges rs).Pairwise
      (fun a b => a.endIdx < b.start ∨ b.endIdx < a.start) :=
    ((sortRanges_perm rs).pairwise_iff hsymm).mpr hd
  refine (hsorted.and hd').imp_of_mem ?_
  intro a b _ hbmem hab
  rcases hab with ⟨hle, hor | hor⟩
  · exact hor
  · have hbb : b.start ≤ b.endIdx :=
      hb b ((sortRanges_perm rs).mem_iff.mp hbmem)
    omega

/-- C2 (**confirmed**): for every text and every emote specification
whose parsed ranges are in-bounds and pairwise non-overlapping, the
segmenter's output covers `[0, len text)` contiguously with no gaps or
overlaps — substituting each `EmoteRef`'s covered substring back in
reproduces `text` exactly — and concatenating the `Literal` segments'
text in order yields exactly `text` with the emote-covered positions
removed. -/
theorem segmenter_coverage (text tag : List Char)
    (hb : ∀ r ∈ parseRanges tag, r.start ≤ r.endIdx ∧ r.endIdx < text.length)
    (hd : (parseRanges tag).Pairwise
      (fun a b => a.endIdx < b.start ∨ b.endIdx < a.start)) :
    reassemble text (buildSegs text tag) (sortRanges (parseRanges tag)) = text
    ∧ litConcat (buildSegs text tag) = removeCovered text (parseRanges tag) := by
  have hperm := sortRanges_perm (parseRanges tag)
  have hp : (sortRanges (parseRanges tag)).Pairwise
      (fun a b => a.endIdx < b.start) :=
    sortRanges_pairwise_sep _ (fun r hr => (hb r hr).1) hd
  have hb' : ∀ r ∈ sortRanges (parseRanges tag),
      0 ≤ r.start ∧ r.start ≤ r.endIdx ∧ r.endIdx < text.length :=
    fun r hr => ⟨Nat.zero_le _, hb r (hperm.mem_iff.mp hr)⟩
  unfold buildSegs
  split
  · rename_i htag
    rw [htag]
    have h0 : parseRanges ([] : List Char) = [] := rfl
    rw [h0]
    have hs0 : sortRanges ([] : List EmoteRange) = [] := rfl
    rw [hs0]
    constructor
    · simp [reassemble]
    · simp [litConcat, removeCovered, removeCoveredFrom_nil]
  · split
    · rename_i hr0
      rw [hr0]
      have hs0 : sortRanges ([] : List EmoteRange) = [] := rfl
      rw [hs0]
      constructor
      · simp [reassemble]
      · simp [litConcat, removeCovered, hr0, removeCoveredFrom_nil]
    · constructor
      · rw [walkSegs_reassemble text _ 0 hp hb']
        exact List.drop_zero text
      · rw [walkSegs_lit text _ 0 hp hb']
        unfold removeCovered
        exact removeCoveredFrom_perm text 0 hperm

/-- Witness for C2 at a concrete input. -/
theorem segmenter_coverage_witness :
    reassemble ("hello world".toList)
        (buildSegs ("hello world".toList) ("25:0-4/33:6-8".toList))
        (sortRanges (parseRanges ("25:0-4/33:6-8".toList)))
      = ("hello world".toList)
    ∧ litConcat (buildSegs ("hello world".toList) ("25:0-4/33:6-8".toList))
      = removeCovered ("hello world".toList) (parseRanges ("25:0-4/33:6-8".toList)) :=
  segmenter_coverage ("hello world".toList) ("25:0-4/33:6-8".toList)
    (by decide) (by decide)

/-- C3 (**confirmed**): an empty emote specification yields exactly
one `Literal` segment whose text equals the input text (and at the
html-part level a single escaped literal), short-circuiting before any
range parsing. -/
theorem empty_emotes_single_literal (text : List Char) :
    buildSegs text [] = [Seg.lit text]
    ∧ buildMessageHtmlParts text [] = [escapeHtml text] := by
  constructor <;> rfl

/-- C10 (**confirmed**): with a range nested strictly inside an
earlier wider range (`0-6` and `2-3` over the 8-character text
`abcdefgh`), the cursor moves backward to the nested range's `end+1`,
and the trailing `Literal` re-emits the characters at positions 4-6
that the wide emote already covers: the literal concatenation is
`efgh` although only `h` is uncovered — overlapping input duplicates
text instead of merely swallowing it. -/
theorem overlap_duplicates_text :
    buildSegs ("abcdefgh".toList) ("1:0-6/2:2-3".toList)
      = [Seg.emote ("1".toList), Seg.emote ("2".toList), Seg.lit ("efgh".toList)]
    ∧ litConcat (buildSegs ("abcdefgh".toList) ("1:0-6/2:2-3".toList))
      = ("efgh".toList)
    ∧ removeCovered ("abcdefgh".toList) (parseRanges ("1:0-6/2:2-3".toList))
      = ("h".toList) := by
  refine ⟨by decide, by decide, by decide⟩

/-- C6 (**confirmed**): a line whose working portion (after stripping
the optional leading `@`-tag head) does not contain the `" :"` marker
produces no event: `parsePrivmsg` returns `none` rather than
failing. -/
theorem no_marker_no_event (line : List Char)
    (h : jsIndexOf (" :".toList) (stripTagHead line).2 = none) :
    parsePrivmsg line = none := by
  unfold parsePrivmsg
  simp only []
  rw [h]

/-- Witness for C6 at a concrete input. -/
theorem no_marker_no_event_witness :
    jsIndexOf (" :".toList) (stripTagHead ("PING tmi.twitch.tv".toList)).2 = none
    ∧ parsePrivmsg ("PING tmi.twitch.tv".toList) = none :=
  ⟨by decide, no_marker_no_event ("PING tmi.twitch.tv".toList) (by decide)⟩

/-- C7 (**confirmed**): a group whose `:`-split is missing the
location list, or whose id or location list is empty, contributes no
ranges; a location whose `-`-split is missing the second offset or
whose offsets are not numeric parses to no range; and every range that
does survive parsing produces exactly one `EmoteRef` segment, in
sorted order, regardless of how many malformed entries were
skipped. -/
theorem malformed_ranges_skipped (text tag g i loc : List Char)
    (hg : (splitOnChar ':' g)[1]? = none
          ∨ (splitOnChar ':' g).headD [] = []
          ∨ (splitOnChar ':' g)[1]? = some [])
    (hl : jsNumber (splitOnChar '-' loc)[1]? = none
          ∨ jsNumber (some ((splitOnChar '-' loc).headD [])) = none) :
    groupRanges g = []
    ∧ parseLoc i loc = none
    ∧ (buildSegs text tag).filterMap emoteId
        = (sortRanges (parseRanges tag)).map EmoteRange.id := by
  refine ⟨?_, ?_, buildSegs_emotes text tag⟩
  · unfold groupRanges
    rcases hg with hg | hg | hg
    · rw [hg]
    · cases hh : (splitOnChar ':' g)[1]? with
      | none => rfl
      | some locs =>
          dsimp only
          rw [if_pos (Or.inl hg)]
    · rw [hg]
      simp
  · unfold parseLoc
    rcases hl with hl | hl
    · rw [hl]
      cases jsNumber (some ((splitOnChar '-' loc).headD [])) <;> rfl
    · rw [hl]

/-- Witness for C7 at a concrete input: the groups `bad`, `:3-4`,
`7:` and the location `xy` are skipped while `25:0-2` and `33:4-6`
still produce their `EmoteRef` segments. -/
theorem malformed_ranges_skipped_witness :
    groupRanges ("bad".toList) = []
    ∧ parseLoc ("7".toList) ("xy".toList) = none
    ∧ (buildSegs ("LOL yay".toList) ("25:0-2/bad/:3-4/7:xy/33:4-6".toList)).filterMap emoteId
        = (sortRanges (parseRanges ("25:0-2/bad/:3-4/7:xy/33:4-6".toList))).map EmoteRange.id :=
  malformed_ranges_skipped ("LOL yay".toList) ("25:0-2/bad/:3-4/7:xy/33:4-6".toList)
    ("bad".toList) ("7".toList) ("xy".toList) (by decide) (by decide)

theorem walkParts_mem (text : List Char) :
    ∀ rs c part, part ∈ walkParts text c rs →
      (∃ i, part = imgPart i)
      ∨ ∃ a n, part = escapeHtml ((text.drop a).take n) := by
  intro rs
  induction rs with
  | nil =>
      intro c part hmem
      unfold walkParts at hmem
      split at hmem
      · rcases List.mem_singleton.mp hmem with rfl
        refine Or.inr ⟨c, text.length, ?_⟩
        rw [List.take_of_length_le (by rw [List.length_drop]; omega)]
      · cases hmem
  | cons r rs ih =>
      intro c part hmem
      unfold walkParts at hmem
      rw [List.mem_append] at hmem
      rcases hmem with hmem | hmem
      · split at hmem
        · rcases List.mem_singleton.mp hmem with rfl
          refine Or.inr ⟨c, r.start - c, ?_⟩
          unfold jsSlice
          rw [List.drop_take]
        · cases hmem
      · rcases List.mem_cons.mp hmem with rfl | hmem
        · exact Or.inl ⟨r.id, rfl⟩
        · exact ih (r.endIdx + 1) part hmem

/-- C9 (**confirmed**): `escapeHtml` replaces every `&`, `<`, `>`,
double-quote and single-quote character with its entity (it equals the
per-character substitution `escChar` mapped over the input), so its
output never contains a raw `<` or `>`; and every part emitted by
`buildMessageHtmlParts` is either an `<img>` emote part or the
HTML-escaped form of a contiguous substring of the input text. -/
theorem literal_parts_escaped (text tag part s : List Char)
    (hmem : part ∈ buildMessageHtmlParts text tag) :
    escapeHtml s = s.flatMap escChar
    ∧ '<' ∉ escapeHtml s
    ∧ '>' ∉ escapeHtml s
    ∧ ((∃ i, part = imgPart i)
        ∨ ∃ a n, part = escapeHtml ((text.drop a).take n)) := by
  refine ⟨escapeHtml_eq_flatMap s, (escapeHtml_no_angle s).1,
    (escapeHtml_no_angle s).2, ?_⟩
  unfold buildMessageHtmlParts at hmem
  split at hmem
  · rcases List.mem_singleton.mp hmem with rfl
    refine Or.inr ⟨0, text.length, ?_⟩
    rw [List.drop_zero, List.take_of_length_le (Nat.le_refl _)]
  · split at hmem
    · rcases List.mem_singleton.mp hmem with rfl
      refine Or.inr ⟨0, text.length, ?_⟩
      rw [List.drop_zero, List.take_of_length_le (Nat.le_refl _)]
    · exact walkParts_mem text _ 0 part hmem

/-- Witness for C9 at a concrete input. -/
theorem literal_parts_escaped_witness :
    escapeHtml ("x&y".toList) = ("x&y".toList).flatMap escChar
    ∧ '<' ∉ escapeHtml ("x&y".toList)
    ∧ '>' ∉ escapeHtml ("x&y".toList)
    ∧ ((∃ i, escapeHtml ("a<b".toList) = imgPart i)
        ∨ ∃ a n, escapeHtml ("a<b".toList)
            = escapeHtml ((("a<b".toList).drop a).take n)) :=
  literal_parts_escaped ("a<b".toList) [] (escapeHtml ("a<b".toList))
    ("x&y".toList) (by decide)

/-! ## TagDecoder round-trip lemmas -/

theorem splitOnChar_no_sep (c : Char) (a : List Char) (ha : c ∉ a) :
    splitOnChar c a = [a] := by
  induction a with
  | nil => rfl
  | cons x xs ih =>
      have hx : x ≠ c := fun h => ha (h ▸ List.mem_cons_self x xs)
      have hxs : c ∉ xs := fun h => ha (List.mem_cons_of_mem x h)
      unfold splitOnChar
      rw [if_neg hx, ih hxs]

theorem splitOnChar_sep_free (c : Char) (a : List Char) (ha : c ∉ a)
    (rest : List Char) :
    splitOnChar c (a ++ c :: rest) = a :: splitOnChar c rest := by
  induction a with
  | nil =>
      show splitOnChar c (c :: rest) = [] :: splitOnChar c rest
      conv_lhs => rw [splitOnChar]
      rw [if_pos rfl]
  | cons x xs ih =>
      have hx : x ≠ c := fun h => ha (h ▸ List.mem_cons_self x xs)
      have hxs : c ∉ xs := fun h => ha (List.mem_cons_of_mem x h)
      show splitOnChar c (x :: (xs ++ c :: rest)) = (x :: xs) :: splitOnChar c rest
      conv_lhs => rw [splitOnChar]
      rw [if_neg hx, ih hxs]

theorem splitOnChar_join (c : Char) :
    ∀ ps : List (List Char), ps ≠ [] → (∀ p ∈ ps, c ∉ p) →
      splitOnChar c (joinChar c ps) = ps := by
  intro ps
  induction ps with
  | nil => intro h; exact absurd rfl h
  | cons x xs ih =>
      intro _ hfree
      cases xs with
      | nil => exact splitOnChar_no_sep c x (hfree x (List.mem_cons_self x []))
      | cons y ys =>
          have hx : c ∉ x := hfree x (List.mem_cons_self x (y :: ys))
          have : joinChar c (x :: y :: ys) = x ++ c :: joinChar c (y :: ys) := rfl
          rw [this, splitOnChar_sep_free c x hx]
          rw [ih (by simp) (fun p hp => hfree p (List.mem_cons_of_mem x hp))]

theorem parseTagPair_of_join (k v : List Char) (hk : '=' ∉ k) :
    parseTagPair (k ++ '=' :: v) = (k, v) := by
  have htw : (k ++ '=' :: v).takeWhile (fun c => c ≠ '=') = k := by
    induction k with
    | nil => simp [List.takeWhile]
    | cons x xs ih =>
        have hx : x ≠ '=' := fun h => hk (h ▸ List.mem_cons_self x xs)
        have hxs : '=' ∉ xs := fun h => hk (List.mem_cons_of_mem x h)
        rw [List.cons_append]
        rw [List.takeWhile_cons_of_pos (by simp [hx])]
        rw [ih hxs]
  unfold parseTagPair
  rw [htw]
  have hlen : k.length ≠ (k ++ '=' :: v).length := by
    rw [List.length_append]
    simp
  rw [if_neg hlen]
  have hdrop : (k ++ '=' :: v).drop (k.length + 1) = v := by
    have h1 : (k ++ '=' :: v).drop k.length = '=' :: v := List.drop_left k ('=' :: v)
    have h2 : (k ++ '=' :: v).drop (k.length + 1)
        = ((k ++ '=' :: v).drop k.length).drop 1 := by
      rw [List.drop_drop]
    rw [h2, h1]
    rfl
  rw [hdrop]

theorem parseTagPair_no_eq (p : List Char) (hp : '=' ∉ p) :
    parseTagPair p = (p, []) := by
  have htw : p.takeWhile (fun c => c ≠ '=') = p := by
    rw [List.takeWhile_eq_self_iff]
    intro x hx
    simp
    exact fun h => hp (h ▸ hx)
  unfold parseTagPair
  rw [htw, if_pos rfl]

theorem lastAssoc_last_occurrence {α β : Type} [DecidableEq α]
    (m : List (α × β)) (i : Nat) (k : α) (v : β)
    (hi : m[i]? = some (k, v))
    (hlast : (m.drop (i + 1)).all (fun p => ! decide (p.1 = k)) = true) :
    lastAssoc m k = some v := by
  rcases List.getElem?_eq_some_iff.mp hi with ⟨hilen, hget⟩
  have hm : m = m.take i ++ (k, v) :: m.drop (i + 1) := by
    conv_lhs => rw [← List.take_append_drop i m]
    congr 1
    rw [List.drop_eq_getElem_cons hilen, hget]
  unfold lastAssoc
  rw [hm, List.filter_append]
  have hfd : ((k, v) :: m.drop (i + 1)).filter (fun p => decide (p.1 = k))
      = [(k, v)] := by
    rw [List.filter_cons_of_pos (by simp)]
    have : (m.drop (i + 1)).filter (fun p => decide (p.1 = k)) = [] := by
      rw [List.filter_eq_nil_iff]
      intro p hp
      have := List.all_eq_true.mp hlast p hp
      simpa using this
    rw [this]
  rw [hfd, List.getLast?_concat]
  rfl

/-- C5 (**confirmed**): decoding a blob of the form
`k1=v1;k2=v2;...;kn=vn` recovers exactly the key/value pairs in order
(provided keys contain no `;`/`=` and values no `;`), looking up a key
returns the value of its last occurrence, and a segment containing no
`=` maps its whole text to the empty value. -/
theorem tag_round_trip (kvs : List (List Char × List Char))
    (i : Nat) (ki vi : List Char) (q : List Char)
    (hne : kvs ≠ [])
    (hk : ∀ p ∈ kvs, ';' ∉ p.1 ∧ '=' ∉ p.1)
    (hv : ∀ p ∈ kvs, ';' ∉ p.2)
    (hi : kvs[i]? = some (ki, vi))
    (hlast : (kvs.drop (i + 1)).all (fun p => ! decide (p.1 = ki)) = true)
    (hq : '=' ∉ q) :
    parseTags (joinChar ';' (kvs.map (fun p => p.1 ++ '=' :: p.2))) = kvs
    ∧ lastAssoc (parseTags (joinChar ';' (kvs.map (fun p => p.1 ++ '=' :: p.2)))) ki
        = some vi
    ∧ parseTagPair q = (q, []) := by
  have hmain : parseTags (joinChar ';' (kvs.map (fun p => p.1 ++ '=' :: p.2)))
      = kvs := by
    unfold parseTags
    rw [splitOnChar_join ';' (kvs.map (fun p => p.1 ++ '=' :: p.2))
      (by simpa using hne) ?hfree]
    case hfree =>
      intro p hp
      rcases List.mem_map.mp hp with ⟨⟨a, b⟩, hab, rfl⟩
      intro hmem
      rcases List.mem_append.mp hmem with h | h
      · exact (hk _ hab).1 h
      · rcases List.mem_cons.mp h with h | h
        · cases h
        · exact hv _ hab h
    rw [List.map_map]
    have : ∀ p ∈ kvs,
        (parseTagPair ∘ fun p => p.1 ++ '=' :: p.2) p = id p := by
      intro p _
      simp only [Function.comp, id]
      exact parseTagPair_of_join p.1 p.2 (hk p (by assumption)).2
    rw [List.map_congr_left this, List.map_id]
  refine ⟨hmain, ?_, parseTagPair_no_eq q hq⟩
  rw [hmain]
  exact lastAssoc_last_occurrence kvs i ki vi hi hlast

/-- Witness for C5 at a concrete input: blob `a=1;b=2;a=3`, with the
duplicate key `a` resolving to its last value `3`. -/
theorem tag_round_trip_witness :
    parseTags (joinChar ';'
        ([(("a".toList), ("1".toList)), (("b".toList), ("2".toList)),
          (("a".toList), ("3".toList))].map (fun p => p.1 ++ '=' :: p.2)))
      = [(("a".toList), ("1".toList)), (("b".toList), ("2".toList)),
          (("a".toList), ("3".toList))]
    ∧ lastAssoc (parseTags (joinChar ';'
        ([(("a".toList), ("1".toList)), (("b".toList), ("2".toList)),
          (("a".toList), ("3".toList))].map (fun p => p.1 ++ '=' :: p.2))))
        ("a".toList)
      = some ("3".toList)
    ∧ parseTagPair ("noequals".toList) = (("noequals".toList), []) :=
  tag_round_trip
    [(("a".toList), ("1".toList)), (("b".toList), ("2".toList)),
      (("a".toList), ("3".toList))]
    2 ("a".toList) ("3".toList) ("noequals".toList)
    (by decide) (by decide) (by decide) (by decide) (by decide) (by decide)

/-! ## BadgeResolver theorems -/

theorem resolveKey_eq_spec (chanMap globalMap : Tbl) :
    resolveKey chanMap globalMap = resolveKeySpec chanMap globalMap := by
  funext key
  unfold resolveKey jsOrGet resolveKeySpec
  cases hc : lastAssoc chanMap key with
  | some u =>
      by_cases hu : u = []
      · cases hg : lastAssoc globalMap key with
        | some w => by_cases hw : w = [] <;> simp [hu, hw]
        | none => simp [hu]
      · simp [hu]
  | none =>
      cases hg : lastAssoc globalMap key with
      | some w => by_cases hw : w = [] <;> simp [hw]
      | none => rfl

/-- C4 counterexample (**corrected**): a key *present* in the channel
table but with the empty-string value does not resolve to the channel
table's value — JS `||` treats the empty string as falsy, so the
resolver falls back to the global table's value instead. -/
theorem badge_precedence_cex :
    lastAssoc [(("subscriber/1".toList), ([] : List Char))] ("subscriber/1".toList)
      = some []
    ∧ buildBadgesFragment [("subscriber/1".toList)] ("42".toList)
        ⟨true, some [(("subscriber/1".toList), ("https://g.example/img".toList))],
          [(("42".toList), [(("subscriber/1".toList), ([] : List Char))])]⟩
      = [("https://g.example/img".toList)]
    ∧ ("https://g.example/img".toList) ≠ ([] : List Char) :=
  ⟨by decide, by decide, by decide⟩

/-- C4 (amended, **corrected**): badge resolution equals, key for key
in input order, the spec-side resolution that prefers the channel
table's value when it is present *and non-empty*, falls back to the
global table's value when present *and non-empty*, and drops the key
otherwise; output length never exceeds input length; and a key whose
channel-table value is non-empty resolves to exactly that value. -/
theorem badge_resolution_amended (keys : List (List Char)) (bid : List Char)
    (cache : CacheState) (k v : List Char)
    (hk : lastAssoc
        (if bid = [] then ([] : Tbl) else (lastAssoc cache.channels bid).getD []) k
      = some v)
    (hv : v ≠ []) :
    buildBadgesFragment keys bid cache
      = keys.filterMap (resolveKeySpec
          (if bid = [] then [] else (lastAssoc cache.channels bid).getD [])
          (cache.global.getD []))
    ∧ (buildBadgesFragment keys bid cache).length ≤ keys.length
    ∧ buildBadgesFragment [k] bid cache = [v] := by
  refine ⟨?_, ?_, ?_⟩
  · unfold buildBadgesFragment
    rw [resolveKey_eq_spec]
  · unfold buildBadgesFragment
    exact List.length_filterMap_le _ keys
  · unfold buildBadgesFragment
    simp [List.filterMap, resolveKey, jsOrGet, hk, hv]

/-- Witness for the amended C4 at a concrete input. -/
theorem badge_resolution_amended_witness :
    buildBadgesFragment [("moderator/1".toList)] ("42".toList)
        ⟨true, some [], [(("42".toList), [(("moderator/1".toList), ("https://c".toList))])]⟩
      = ([("moderator/1".toList)]).filterMap (resolveKeySpec
          (if ("42".toList) = [] then []
            else (lastAssoc
              (⟨true, some [], [(("42".toList),
                  [(("moderator/1".toList), ("https://c".toList))])]⟩ :
                CacheState).channels ("42".toList)).getD [])
          ((some ([] : Tbl)).getD []))
    ∧ (buildBadgesFragment [("moderator/1".toList)] ("42".toList)
        ⟨true, some [], [(("42".toList), [(("moderator/1".toList), ("https://c".toList))])]⟩).length
      ≤ ([("moderator/1".toList)]).length
    ∧ buildBadgesFragment [("moderator/1".toList)] ("42".toList)
        ⟨true, some [], [(("42".toList), [(("moderator/1".toList), ("https://c".toList))])]⟩
      = [("https://c".toList)] :=
  badge_resolution_amended [("moderator/1".toList)] ("42".toList)
    ⟨true, some [], [(("42".toList), [(("moderator/1".toList), ("https://c".toList))])]⟩
    ("moderator/1".toList) ("https://c".toList) (by decide) (by decide)

/-! ## LookupCache theorems -/

/-- Invariant for the global slot: the flag is set before the fetch is
issued (in the same atomic block), so an unset flag means no global
fetch was ever issued, and at most one is ever issued. -/
def GInv (w : World) : Prop :=
  (w.cache.globalLoaded = false → w.log.count FetchKey.global = 0)
  ∧ w.log.count FetchKey.global ≤ 1

theorem ensureStep_global (proxyOn : Bool) (st : CacheState) (t : Thread)
    (res : Option Tbl) :
    ((ensureStep proxyOn st t res).2.2.count FetchKey.global
        ≤ if st.globalLoaded = false then 1 else 0)
    ∧ ((ensureStep proxyOn st t res).1.globalLoaded = false →
        st.globalLoaded = false
        ∧ (ensureStep proxyOn st t res).2.2.count FetchKey.global = 0) := by
  obtain ⟨bid, pc⟩ := t
  cases pc <;> simp only [ensureStep]
  · -- start
    by_cases hpx : proxyOn = false
    · rw [if_pos hpx]
      exact ⟨by simp, fun hl => ⟨hl, rfl⟩⟩
    · rw [if_neg hpx]
      by_cases hgl : st.globalLoaded = false
      · rw [if_pos hgl, if_pos hgl]
        refine ⟨by simp, fun hl => ?_⟩
        simp at hl
      · rw [if_neg hgl]
        exact ⟨by simp, fun hl => ⟨hl, rfl⟩⟩
  · -- awaitGlobal
    exact ⟨by simp, fun hl => ⟨hl, rfl⟩⟩
  · -- chanCheck
    by_cases hb : bid = []
    · rw [if_pos hb]
      exact ⟨by simp, fun hl => ⟨hl, rfl⟩⟩
    · rw [if_neg hb]
      by_cases hc : (lastAssoc st.channels bid).isSome
      · rw [if_pos hc]
        exact ⟨by simp, fun hl => ⟨hl, rfl⟩⟩
      · rw [if_neg hc]
        refine ⟨?_, fun hl => ⟨hl, by simp [List.count_singleton]⟩⟩
        simp [List.count_singleton]
  · -- awaitChan
    exact ⟨by simp, fun hl => ⟨hl, rfl⟩⟩
  · -- done
    exact ⟨by simp, fun hl => ⟨hl, rfl⟩⟩

theorem ginv_step (proxyOn : Bool) (w : World) (a : SchedAct) (h : GInv w) :
    GInv (runAct proxyOn w a) := by
  obtain ⟨h1, h2⟩ := h
  cases a with
  | spawn bid => exact ⟨h1, h2⟩
  | step i res =>
      simp only [runAct]
      cases ht : w.threads[i]? with
      | none => exact ⟨h1, h2⟩
      | some t =>
          have hs := ensureStep_global proxyOn w.cache t res
          constructor
          · intro hl
            replace hl : (ensureStep proxyOn w.cache t res).1.globalLoaded
                = false := hl
            obtain ⟨hold, hzero⟩ := hs.2 hl
            show (w.log ++ (ensureStep proxyOn w.cache t res).2.2).count
              FetchKey.global = 0
            rw [List.count_append, h1 hold, hzero]
          · show (w.log ++ (ensureStep proxyOn w.cache t res).2.2).count
              FetchKey.global ≤ 1
            rw [List.count_append]
            by_cases hgl : w.cache.globalLoaded = false
            · rw [if_pos hgl] at hs
              have hz := h1 hgl
              have := hs.1
              omega
            · rw [if_neg hgl] at hs
              have := hs.1
              omega

theorem ginv_run (proxyOn : Bool) :
    ∀ (sched : List SchedAct) (w : World), GInv w → GInv (run proxyOn w sched) := by
  intro sched
  induction sched with
  | nil => intro w h; exact h
  | cons a as ih => intro w h; exact ih (runAct proxyOn w a) (ginv_step proxyOn w a h)

theorem ensureGlobalSeq_channels (st : CacheState) (rg : Option Tbl) :
    (ensureGlobalSeq st rg).1.channels = st.channels := by
  unfold ensureGlobalSeq
  split <;> rfl

theorem ensureGlobalSeq_count (st : CacheState) (rg : Option Tbl) (id : List Char) :
    (ensureGlobalSeq st rg).2.count (FetchKey.channel id) = 0 := by
  unfold ensureGlobalSeq
  split <;> simp [List.count_singleton]

theorem ensureSeq_channel (proxyOn : Bool) (st : CacheState) (bid : List Char)
    (rg rc : Option Tbl) (id : List Char) :
    ((ensureSeq proxyOn st bid rg rc).2.count (FetchKey.channel id)
        ≤ if lastAssoc st.channels id = none then 1 else 0)
    ∧ (lastAssoc (ensureSeq proxyOn st bid rg rc).1.channels id = none →
        lastAssoc st.channels id = none
        ∧ (ensureSeq proxyOn st bid rg rc).2.count (FetchKey.channel id) = 0) := by
  unfold ensureSeq
  by_cases hpx : proxyOn = false
  · rw [if_pos hpx]
    refine ⟨by simp, fun h => ⟨h, rfl⟩⟩
  · rw [if_neg hpx]
    by_cases hb : bid = []
    · rw [if_pos hb]
      refine ⟨?_, fun h => ?_⟩
      · rw [ensureGlobalSeq_count]
        omega
      · rw [ensureGlobalSeq_channels] at h
        exact ⟨h, ensureGlobalSeq_count st rg id⟩
    · rw [if_neg hb]
      by_cases hc : (lastAssoc (ensureGlobalSeq st rg).1.channels bid).isSome
      · rw [if_pos hc]
        refine ⟨?_, fun h => ?_⟩
        · rw [ensureGlobalSeq_count]
          omega
        · rw [ensureGlobalSeq_channels] at h
          exact ⟨h, ensureGlobalSeq_count st rg id⟩
      · rw [if_neg hc]
        by_cases hid : bid = id
        · subst hid
          rw [ensureGlobalSeq_channels] at hc
          have hnone : lastAssoc st.channels bid = none := by
            cases hx : lastAssoc st.channels bid with
            | none => rfl
            | some tb => rw [hx] at hc; simp at hc
          refine ⟨?_, fun h => ?_⟩
          · rw [if_pos hnone]
            simp only [List.count_append, ensureGlobalSeq_count,
              List.count_singleton]
            simp
          · exfalso
            rw [lastAssoc_append_single, if_pos rfl] at h
            cases h
        · refine ⟨?_, fun h => ?_⟩
          · simp only [List.count_append, ensureGlobalSeq_count,
              List.count_singleton]
            have : (FetchKey.channel bid == FetchKey.channel id) = false := by
              simp [hid]
            rw [this]
            simp
          · rw [lastAssoc_append_single, if_neg hid,
              ensureGlobalSeq_channels] at h
            refine ⟨h, ?_⟩
            simp only [List.count_append, ensureGlobalSeq_count,
              List.count_singleton]
            have : (FetchKey.channel bid == FetchKey.channel id) = false := by
              simp [hid]
            rw [this]
            simp

theorem seqRun_channel_count (proxyOn : Bool) (id : List Char) :
    ∀ (calls : List (List Char × Option Tbl × Option Tbl)) (st : CacheState),
      (seqRun proxyOn st calls).2.count (FetchKey.channel id)
        ≤ if lastAssoc st.channels id = none then 1 else 0 := by
  intro calls
  induction calls with
  | nil =>
      intro st
      simp [seqRun]
  | cons c cs ih =>
      intro st
      unfold seqRun
      rw [List.count_append]
      have h1 := ensureSeq_channel proxyOn st c.1 c.2.1 c.2.2 id
      have h2 := ih (ensureSeq proxyOn st c.1 c.2.1 c.2.2).1
      by_cases hst : lastAssoc st.channels id = none
      · rw [if_pos hst]
        rw [if_pos hst] at h1
        by_cases hnone :
            lastAssoc (ensureSeq proxyOn st c.1 c.2.1 c.2.2).1.channels id = none
        · obtain ⟨_, hb⟩ := h1.2 hnone
          rw [if_pos hnone] at h2
          omega
        · rw [if_neg hnone] at h2
          have := h1.1
          omega
      · rw [if_neg hst]
        rw [if_neg hst] at h1
        by_cases hnone :
            lastAssoc (ensureSeq proxyOn st c.1 c.2.1 c.2.2).1.channels id = none
        · exact absurd (h1.2 hnone).1 hst
        · rw [if_neg hnone] at h2
          have := h1.1
          omega

/-- C1 counterexample (**corrected**): two concurrent resolution
requests for the same previously unseen room id `42` — the first
suspends on the global fetch, the second passes the global check and
issues the channel fetch, then the first resumes, still finds no
channel entry (the entry is only stored *after* a channel fetch
resolves), and issues a second fetch for the same room id.  The claim
that at most one fetch is ever issued per key is therefore false for
channel slots. -/
theorem cache_single_fetch_cex :
    (run true
        ⟨⟨false, none, []⟩,
          [⟨("42".toList), TPc.start⟩, ⟨("42".toList), TPc.start⟩], []⟩
        [SchedAct.step 0 none, SchedAct.step 1 none, SchedAct.step 1 none,
          SchedAct.step 0 (some []), SchedAct.step 0 none]).log.count
      (FetchKey.channel ("42".toList)) = 2 := by decide

/-- C1 (amended, **corrected**): the global slot's fetch is issued at
most once in any interleaving of any number of concurrent resolution
requests (the flag is set atomically with the fetch issue), and a
channel fetch is issued at most once per room id when resolution
requests run sequentially to completion; under concurrency, however,
requests for the same unseen room id may each issue their own channel
fetch. -/
theorem cache_fetch_discipline (proxyOn : Bool) (chans : List (List Char × Tbl))
    (ts : List Thread) (sched : List SchedAct) (id : List Char) (st : CacheState)
    (calls : List (List Char × Option Tbl × Option Tbl))
    (h : lastAssoc st.channels id = none) :
    (run proxyOn ⟨⟨false, none, chans⟩, ts, []⟩ sched).log.count FetchKey.global ≤ 1
    ∧ (seqRun proxyOn st calls).2.count (FetchKey.channel id) ≤ 1 := by
  constructor
  · exact (ginv_run proxyOn sched ⟨⟨false, none, chans⟩, ts, []⟩
      ⟨fun _ => rfl, by simp⟩).2
  · have hx := seqRun_channel_count proxyOn id calls st
    rw [if_pos h] at hx
    exact hx

/-- Witness for the amended C1 at a concrete input. -/
theorem cache_fetch_discipline_witness :
    (run true ⟨⟨false, none, []⟩, [⟨("7".toList), TPc.start⟩], []⟩
        [SchedAct.step 0 none, SchedAct.step 0 (some []), SchedAct.step 0 none,
          SchedAct.step 0 none, SchedAct.step 0 none]).log.count FetchKey.global ≤ 1
    ∧ (seqRun true ⟨false, none, []⟩
        [(("7".toList), none, none), (("7".toList), none, none)]).2.count
        (FetchKey.channel ("7".toList)) ≤ 1 :=
  cache_fetch_discipline true [] [⟨("7".toList), TPc.start⟩]
    [SchedAct.step 0 none, SchedAct.step 0 (some []), SchedAct.step 0 none,
      SchedAct.step 0 none, SchedAct.step 0 none]
    ("7".toList) ⟨false, none, []⟩
    [(("7".toList), none, none), (("7".toList), none, none)] (by decide)

/-- Invariant for one channel slot: the slot holds table `tbl` and no
in-flight invocation for that room id is suspended at its channel
fetch (which would overwrite the slot when it resolves). -/
def SlotInv (id : List Char) (tbl : Tbl) (w : World) : Prop :=
  lastAssoc w.cache.channels id = some tbl
  ∧ ∀ t ∈ w.threads, t.bid = id → t.pc ≠ TPc.awaitChan

theorem ensureStep_channel_preserve (proxyOn : Bool) (st : CacheState)
    (t : Thread) (res : Option Tbl) (id : List Char) (tbl : Tbl)
    (hslot : lastAssoc st.channels id = some tbl)
    (hnotawait : t.bid = id → t.pc ≠ TPc.awaitChan) :
    lastAssoc (ensureStep proxyOn st t res).1.channels id = some tbl
    ∧ (ensureStep proxyOn st t res).2.2.count (FetchKey.channel id) = 0
    ∧ ((ensureStep proxyOn st t res).2.1.bid = id →
        (ensureStep proxyOn st t res).2.1.pc ≠ TPc.awaitChan) := by
  obtain ⟨bid, pc⟩ := t
  cases pc <;> simp only [ensureStep]
  · -- start
    by_cases hpx : proxyOn = false
    · rw [if_pos hpx]
      exact ⟨hslot, rfl, fun _ => by simp⟩
    · rw [if_neg hpx]
      by_cases hgl : st.globalLoaded = false
      · rw [if_pos hgl]
        exact ⟨hslot, by simp [List.count_singleton], fun _ => by simp⟩
      · rw [if_neg hgl]
        exact ⟨hslot, rfl, fun _ => by simp⟩
  · -- awaitGlobal
    exact ⟨hslot, rfl, fun _ => by simp⟩
  · -- chanCheck
    by_cases hb : bid = []
    · rw [if_pos hb]
      exact ⟨hslot, rfl, fun _ => by simp⟩
    · rw [if_neg hb]
      by_cases hc : (lastAssoc st.channels bid).isSome
      · rw [if_pos hc]
        exact ⟨hslot, rfl, fun _ => by simp⟩
      · rw [if_neg hc]
        have hbid : bid ≠ id := by
          intro hcon
          subst hcon
          rw [hslot] at hc
          simp at hc
        refine ⟨hslot, ?_, fun hcon => absurd hcon hbid⟩
        simp [List.count_singleton, hbid]
  · -- awaitChan
    have hbid : bid ≠ id := by
      intro hcon
      exact hnotawait hcon rfl
    refine ⟨?_, rfl, fun _ => by simp⟩
    show lastAssoc (st.channels ++ [(bid, res.getD [])]) id = some tbl
    rw [lastAssoc_append_single, if_neg hbid]
    exact hslot
  · -- done
    exact ⟨hslot, rfl, fun hcon => hnotawait hcon⟩

theorem slotinv_step (proxyOn : Bool) (id : List Char) (tbl : Tbl)
    (w : World) (a : SchedAct) (h : SlotInv id tbl w) :
    SlotInv id tbl (runAct proxyOn w a)
    ∧ (runAct proxyOn w a).log.count (FetchKey.channel id)
        = w.log.count (FetchKey.channel id) := by
  obtain ⟨h1, h2⟩ := h
  cases a with
  | spawn bid =>
      refine ⟨⟨h1, ?_⟩, rfl⟩
      intro t ht
      rcases List.mem_append.mp ht with ht | ht
      · exact h2 t ht
      · rcases List.mem_singleton.mp ht with rfl
        intro _
        simp
  | step i res =>
      simp only [runAct]
      cases ht : w.threads[i]? with
      | none => exact ⟨⟨h1, h2⟩, rfl⟩
      | some t =>
          have htmem : t ∈ w.threads := by
            rcases List.getElem?_eq_some_iff.mp ht with ⟨hlt, hget⟩
            exact hget ▸ List.getElem_mem hlt
          have hstep := ensureStep_channel_preserve proxyOn w.cache t res id tbl
            h1 (h2 t htmem)
          refine ⟨⟨hstep.1, ?_⟩, ?_⟩
          · intro t' ht'
            rcases List.mem_or_eq_of_mem_set ht' with ht' | rfl
            · exact h2 t' ht'
            · exact hstep.2.2
          · show (w.log ++ (ensureStep proxyOn w.cache t res).2.2).count
              (FetchKey.channel id) = w.log.count (FetchKey.channel id)
            rw [List.count_append, hstep.2.1]
            omega

theorem slotinv_run (proxyOn : Bool) (id : List Char) (tbl : Tbl) :
    ∀ (sched : List SchedAct) (w : World), SlotInv id tbl w →
      SlotInv id tbl (run proxyOn w sched)
      ∧ (run proxyOn w sched).log.count (FetchKey.channel id)
          = w.log.count (FetchKey.channel id) := by
  intro sched
  induction sched with
  | nil => intro w h; exact ⟨h, rfl⟩
  | cons a as ih =>
      intro w h
      have hstep := slotinv_step proxyOn id tbl w a h
      have hrest := ih (runAct proxyOn w a) hstep.1
      have hcons : run proxyOn w (a :: as) = run proxyOn (runAct proxyOn w a) as :=
        rfl
      rw [hcons]
      exact ⟨hrest.1, by rw [hrest.2, hstep.2]⟩

/-- C8 counterexample (**corrected**): with the global slot already
populated, two concurrent resolution requests for the unseen room id
`42` both issue channel fetches; the first fetch *fails* and the slot
is populated with the empty table — but the second, still in-flight
fetch then resolves successfully and *overwrites* the slot with a
non-empty table, after which resolution for that key succeeds.  So a
failed slot does not necessarily hold an empty table for the remainder
of the process lifetime. -/
theorem negative_caching_cex :
    lastAssoc (run true
        ⟨⟨true, some [], []⟩,
          [⟨("42".toList), TPc.start⟩, ⟨("42".toList), TPc.start⟩], []⟩
        [SchedAct.step 0 none, SchedAct.step 0 none, SchedAct.step 1 none,
          SchedAct.step 1 none, SchedAct.step 0 none]).cache.channels
      ("42".toList) = some ([] : Tbl)
    ∧ lastAssoc (run true
        ⟨⟨true, some [], []⟩,
          [⟨("42".toList), TPc.start⟩, ⟨("42".toList), TPc.start⟩], []⟩
        [SchedAct.step 0 none, SchedAct.step 0 none, SchedAct.step 1 none,
          SchedAct.step 1 none, SchedAct.step 0 none,
          SchedAct.step 1
            (some [(("subscriber/6".toList), ("https://img".toList))])]).cache.channels
      ("42".toList) = some [(("subscriber/6".toList), ("https://img".toList))]
    ∧ buildBadgesFragment [("subscriber/6".toList)] ("42".toList)
        (run true
          ⟨⟨true, some [], []⟩,
            [⟨("42".toList), TPc.start⟩, ⟨("42".toList), TPc.start⟩], []⟩
          [SchedAct.step 0 none, SchedAct.step 0 none, SchedAct.step 1 none,
            SchedAct.step 1 none, SchedAct.step 0 none,
            SchedAct.step 1
              (some [(("subscriber/6".toList), ("https://img".toList))])]).cache
      = [("https://img".toList)] :=
  ⟨by decide, by decide, by decide⟩

/-- C8 (amended, **corrected**): a failed channel fetch populates its
slot with the empty table; once a slot is populated — and provided no
duplicate fetch for that slot is still in flight (which sequential
processing guarantees) — its contents survive any further schedule,
including newly arriving resolution requests, and no further fetch for
that key is ever issued; lookups in an empty table resolve nothing, so
with both slots holding failure-cached empty tables resolution returns
no badges, without any new fetch call. -/
theorem negative_caching_amended
    (st : CacheState) (bid : List Char) (rg : Option Tbl)
    (hb : bid ≠ []) (hn : lastAssoc st.channels bid = none)
    (proxyOn : Bool) (w : World) (sched : List SchedAct)
    (id : List Char) (tbl : Tbl)
    (hslot : lastAssoc w.cache.channels id = some tbl)
    (hfl : ∀ t ∈ w.threads, t.bid = id → t.pc ≠ TPc.awaitChan)
    (keys : List (List Char)) (cache2 : CacheState) (rid k : List Char)
    (h5 : lastAssoc cache2.channels rid = some ([] : Tbl))
    (h6 : cache2.global = some ([] : Tbl)) :
    lastAssoc (ensureSeq true st bid rg none).1.channels bid = some ([] : Tbl)
    ∧ lastAssoc (run proxyOn w sched).cache.channels id = some tbl
    ∧ (run proxyOn w sched).log.count (FetchKey.channel id)
        = w.log.count (FetchKey.channel id)
    ∧ lastAssoc ([] : Tbl) k = none
    ∧ buildBadgesFragment keys rid cache2 = [] := by
  have hrun := slotinv_run proxyOn id tbl sched w ⟨hslot, hfl⟩
  refine ⟨?_, hrun.1.1, hrun.2, rfl, ?_⟩
  · unfold ensureSeq
    rw [if_neg (by simp), if_neg hb]
    have hch : lastAssoc (ensureGlobalSeq st rg).1.channels bid = none := by
      rw [ensureGlobalSeq_channels]
      exact hn
    rw [if_neg (by rw [hch]; simp)]
    show lastAssoc ((ensureGlobalSeq st rg).1.channels
      ++ [(bid, (none : Option Tbl).getD [])]) bid = some []
    rw [lastAssoc_append_single, if_pos rfl]
    rfl
  · unfold buildBadgesFragment
    apply List.filterMap_eq_nil_iff.mpr
    intro key _
    have hc : (if rid = [] then ([] : Tbl)
        else (lastAssoc cache2.channels rid).getD []) = [] := by
      split
      · rfl
      · rw [h5]
        rfl
    rw [hc, h6]
    rfl

/-- Witness for the amended C8 at a concrete input. -/
theorem negative_caching_amended_witness :
    lastAssoc (ensureSeq true ⟨true, some [], []⟩ ("9".toList) none none).1.channels
      ("9".toList) = some ([] : Tbl)
    ∧ lastAssoc (run true
        ⟨⟨true, some [], [(("9".toList), ([] : Tbl))]⟩, [], []⟩
        [SchedAct.spawn ("9".toList), SchedAct.step 0 none,
          SchedAct.step 0 none, SchedAct.step 0 none]).cache.channels
      ("9".toList) = some ([] : Tbl)
    ∧ (run true ⟨⟨true, some [], [(("9".toList), ([] : Tbl))]⟩, [], []⟩
        [SchedAct.spawn ("9".toList), SchedAct.step 0 none,
          SchedAct.step 0 none, SchedAct.step 0 none]).log.count
        (FetchKey.channel ("9".toList))
      = (⟨⟨true, some [], [(("9".toList), ([] : Tbl))]⟩, [],
          ([] : List FetchKey)⟩ : World).log.count (FetchKey.channel ("9".toList))
    ∧ lastAssoc ([] : Tbl) ("subscriber/6".toList) = none
    ∧ buildBadgesFragment [("subscriber/6".toList)] ("9".toList)
        ⟨true, some [], [(("9".toList), ([] : Tbl))]⟩ = [] :=
  negative_caching_amended ⟨true, some [], []⟩ ("9".toList) none
    (by decide) (by decide) true
    ⟨⟨true, some [], [(("9".toList), ([] : Tbl))]⟩, [], []⟩
    [SchedAct.spawn ("9".toList), SchedAct.step 0 none,
      SchedAct.step 0 none, SchedAct.step 0 none]
    ("9".toList) ([] : Tbl) (by decide) (by decide)
    [("subscriber/6".toList)] ⟨true, some [], [(("9".toList), ([] : Tbl))]⟩
    ("9".toList) ("subscriber/6".toList) (by decide) (by decide)

end Fyrechat
